import Mathlib

/-!
Verification development for the Apigee proxy-bot translator core.

The source under study is the pattern-matching extractor
(`common/parsers.py`), the XML template renderer
(`services/template_generator.py`) and the deployment service
(`services/apigee_service.py`).  Python strings are modelled as `List Char`
(`String` for rendered templates); each `re.search` call is modelled by a
bespoke backtracking matcher that reproduces leftmost-first search with
greedy / lazy quantifier priority for the exact patterns that occur in the
source.  Python `str.lower` is modelled on its ASCII action, which is the
only part the matched keyword phrases and character classes depend on.
-/

/-! ### Character primitives -/

/-- ASCII action of Python `str.lower` on one character. -/
def pyLower (c : Char) : Char :=
  if 65 ≤ c.toNat ∧ c.toNat ≤ 90 then Char.ofNat (c.toNat + 32) else c

/-- `message.lower()` character-wise. -/
def lowerStr (s : List Char) : List Char := s.map pyLower

/-- Python regex `\s` (ASCII whitespace set). -/
def isPyWs (c : Char) : Bool :=
  c = ' ' || c = '\t' || c = '\n' || c = '\r' || c = '\x0b' || c = '\x0c'

/-- Character class `[a-zA-Z0-9\-_]` used by the proxy-name patterns. -/
def isNameChar (c : Char) : Bool :=
  c.isAlpha || c.isDigit || c = '-' || c = '_'

/-- Character class `[a-zA-Z0-9\-_/]` used by the base-path patterns. -/
def isPathChar (c : Char) : Bool := isNameChar c || c = '/'

/-- Character class `[^\s]` used by most URL patterns. -/
def isUrlAnyChar (c : Char) : Bool := !(isPyWs c)

/-- Character class `[^\s,;.\s]` used by the sixth URL pattern. -/
def isUrlNoPunct (c : Char) : Bool :=
  !(isPyWs c) && c ≠ ',' && c ≠ ';' && c ≠ '.'

/-- Character class `[a-zA-Z0-9\-_./:]` used by the bare-URL pattern. -/
def isUrlBareChar (c : Char) : Bool :=
  c.isAlpha || c.isDigit || c = '-' || c = '_' || c = '.' || c = '/' || c = ':'

/-- Python regex `\d`. -/
def isDigitChar (c : Char) : Bool := c.isDigit

/-! ### Substring containment (Python `in` on strings) -/

/-- Boolean substring test, `needle in haystack` on Python strings. -/
def containsSub (n : List Char) : List Char → Bool
  | [] => n.isEmpty
  | h :: t => n.isPrefixOf (h :: t) || containsSub n t

/-- Substring test on rendered `String` values. -/
def containsStr (n h : String) : Bool := containsSub n.toList h.toList

/-! ### Matcher combinators

Each Python pattern is compiled by hand into a matcher over `List Char`.
Matchers return `Option` results; alternatives are ordered exactly as the
backtracking engine would try them, so the first `some` agrees with
`re.search`. -/

/-- Consume a case-sensitive literal, returning the rest of the input. -/
def eatLit : List Char → List Char → Option (List Char)
  | [], s => some s
  | _ :: _, [] => none
  | l :: ls, c :: cs => if c = l then eatLit ls cs else none

/-- Consume a case-insensitive literal (given lowercased), returning the
consumed original characters and the rest of the input. -/
def eatLitCI : List Char → List Char → Option (List Char × List Char)
  | [], s => some ([], s)
  | _ :: _, [] => none
  | l :: ls, c :: cs =>
    if pyLower c = l then (eatLitCI ls cs).map (fun gr => (c :: gr.1, gr.2)) else none

/-- Greedy `[cls]+` at the end of a pattern: the maximal nonempty run. -/
def takeRun1 (p : Char → Bool) (s : List Char) : Option (List Char × List Char) :=
  let g := s.takeWhile p
  if g.isEmpty then none else some (g, s.dropWhile p)

/-- `re.search` position loop: try the pattern at every start position,
leftmost first (including the position one past the end). -/
def searchFrom (step : List Char → Option α) : List Char → Option α
  | [] => step []
  | s@(_ :: t) => (step s).orElse (fun _ => searchFrom step t)

/-- Lazy `.*?` (not matching a newline) followed by continuation `k`:
try `k` before consuming each further character. -/
def lazyDotScan (k : List Char → Option α) : List Char → Option α
  | [] => k []
  | s@(c :: t) => (k s).orElse (fun _ => if c = '\n' then none else lazyDotScan k t)

/-- Backtracking worker for greedy `[cls]+` followed by continuation `k`:
longer runs are tried before shorter ones.  `acc` holds the consumed
characters in reverse. -/
def greedyAux (p : Char → Bool) (k : List Char → List Char → Option α) :
    List Char → List Char → Option α
  | acc, [] => k acc.reverse []
  | acc, s@(c :: t) =>
    if p c then (greedyAux p k (c :: acc) t).orElse (fun _ => k acc.reverse s)
    else k acc.reverse s

/-- Greedy `[cls]+` (at least one character) followed by continuation `k`. -/
def greedyPlus (p : Char → Bool) (k : List Char → List Char → Option α)
    (s : List Char) : Option α :=
  match s with
  | [] => none
  | c :: t => if p c then greedyAux p k [c] t else none

/-- Pattern fragment `LIT\s+([cls]+)` anchored at the current position:
the whitespace run and the captured class run are both maximal, which
agrees with the backtracking engine because every class used with this
fragment is disjoint from `\s`. -/
def litWsGroupAt (lit : List Char) (cls : Char → Bool) (s : List Char) :
    Option (List Char) := do
  let s1 ← eatLit lit s
  let r1 ← takeRun1 isPyWs s1
  let r2 ← takeRun1 cls r1.2
  pure r2.1

/-! ### `RequestParser.extract_proxy_details` — proxy name

`name_patterns` from `common/parsers.py`, searched in order against the
lowercased message; the first matching pattern wins and spaces in the
captured group become hyphens.  Patterns 6 and 7 contain uppercase
literals and are searched case-sensitively against the lowercased
message, so they can never fire; they are kept for faithfulness. -/

/-- Pattern `create.*?(?:proxy|api).*?named\s+([a-zA-Z0-9\-_]+)` at one
start position. -/
def namePat4At (s : List Char) : Option (List Char) := do
  let s1 ← eatLit "create".toList s
  lazyDotScan (fun s2 =>
    ((eatLit "proxy".toList s2).bind (fun s3 =>
        lazyDotScan (litWsGroupAt "named".toList isNameChar) s3)).orElse (fun _ =>
      (eatLit "api".toList s2).bind (fun s3 =>
        lazyDotScan (litWsGroupAt "named".toList isNameChar) s3))) s1

/-- Pattern `create.*?([a-zA-Z0-9\-_]+).*?(?:proxy|api)` at one start
position. -/
def namePat5At (s : List Char) : Option (List Char) := do
  let s1 ← eatLit "create".toList s
  lazyDotScan (fun s2 =>
    greedyPlus isNameChar (fun g s3 =>
      lazyDotScan (fun s4 =>
        ((eatLit "proxy".toList s4).map (fun _ => g)).orElse (fun _ =>
          (eatLit "api".toList s4).map (fun _ => g))) s3) s2) s1

/-- First-match loop over the seven `name_patterns`. -/
def nameMatch (ml : List Char) : Option (List Char) :=
  (searchFrom (litWsGroupAt "named".toList isNameChar) ml).orElse fun _ =>
  (searchFrom (litWsGroupAt "called".toList isNameChar) ml).orElse fun _ =>
  (searchFrom (litWsGroupAt "proxy".toList isNameChar) ml).orElse fun _ =>
  (searchFrom namePat4At ml).orElse fun _ =>
  (searchFrom namePat5At ml).orElse fun _ =>
  (searchFrom (litWsGroupAt "API proxy named".toList isNameChar) ml).orElse fun _ =>
  (searchFrom (litWsGroupAt "Apigee API proxy named".toList isNameChar) ml)

/-- Proxy-name extraction: first matching pattern, `' '` replaced by `'-'`,
default `"generated-proxy"`. -/
def extractProxyName (ml : List Char) : List Char :=
  match nameMatch ml with
  | some g => g.map (fun c => if c = ' ' then '-' else c)
  | none => "generated-proxy".toList

/-! ### `RequestParser.extract_proxy_details` — target URL

`url_patterns` are searched with `re.IGNORECASE` against the original
message; a match is accepted only after stripping trailing `.,;` if its
length exceeds 10 and it contains a `'.'`, otherwise the next pattern is
tried. -/

/-- Group `(https?://TAIL+)` at the current position: case-insensitive
scheme literal with the optional `s` tried first, then a maximal nonempty
run of tail-class characters.  Returns the original-case matched text. -/
def urlGroupAt (tailCls : Char → Bool) (s : List Char) : Option (List Char) := do
  let r1 ← eatLitCI "http".toList s
  match eatLitCI "s".toList r1.2 with
  | some r2 =>
    ((eatLitCI "://".toList r2.2).bind (fun r3 =>
        (takeRun1 tailCls r3.2).map (fun r4 => r1.1 ++ r2.1 ++ r3.1 ++ r4.1))).orElse
      (fun _ =>
        (eatLitCI "://".toList r1.2).bind (fun r3 =>
          (takeRun1 tailCls r3.2).map (fun r4 => r1.1 ++ r3.1 ++ r4.1)))
  | none =>
    (eatLitCI "://".toList r1.2).bind (fun r3 =>
      (takeRun1 tailCls r3.2).map (fun r4 => r1.1 ++ r3.1 ++ r4.1))

/-- Pattern `target endpoint should be:\s*(https?://[^\s]+)` at one
position; `\s*` is maximal because whitespace cannot start the scheme. -/
def urlPat1At (s : List Char) : Option (List Char) := do
  let r ← eatLitCI "target endpoint should be:".toList s
  urlGroupAt isUrlAnyChar (r.2.dropWhile isPyWs)

/-- Tail `(?:be|is|:)\s*(https?://[^\s]+)` of the second URL pattern, one
alternative at a time. -/
def urlAltTail (lit : List Char) (s : List Char) : Option (List Char) := do
  let r ← eatLitCI lit s
  urlGroupAt isUrlAnyChar (r.2.dropWhile isPyWs)

/-- Pattern `target.*?endpoint.*?(?:be|is|:)\s*(https?://[^\s]+)` at one
start position. -/
def urlPat2At (s : List Char) : Option (List Char) := do
  let r1 ← eatLitCI "target".toList s
  lazyDotScan (fun s2 => do
    let r2 ← eatLitCI "endpoint".toList s2
    lazyDotScan (fun s4 =>
      (urlAltTail "be".toList s4).orElse fun _ =>
      (urlAltTail "is".toList s4).orElse fun _ =>
      urlAltTail ":".toList s4) r2.2) r1.2

/-- Pattern `pointing to\s+(https?://[^\s]+)` at one start position. -/
def urlPat3At (s : List Char) : Option (List Char) := do
  let r1 ← eatLitCI "pointing to".toList s
  let r2 ← takeRun1 isPyWs r1.2
  urlGroupAt isUrlAnyChar r2.2

/-- Pattern `LIT.*?(https?://TAIL+)` at one start position (URL patterns
4, 5 and 6). -/
def urlLitDotGroupAt (lit : List Char) (tailCls : Char → Bool) (s : List Char) :
    Option (List Char) := do
  let r1 ← eatLitCI lit s
  lazyDotScan (urlGroupAt tailCls) r1.2

/-- Pattern `(https?://[a-zA-Z0-9\-_./:]+(?:/[a-zA-Z0-9\-_./:]*)?)` at one
start position.  The optional `(?:/[...]*)` part can never consume
anything: it would have to start with `'/'`, which belongs to the class
of the preceding maximal `+` run, so it always matches empty. -/
def urlBareAt (s : List Char) : Option (List Char) :=
  urlGroupAt isUrlBareChar s

/-- `url.rstrip('.,;')`. -/
def stripUrlPunct (c : Char) : Bool := c = '.' || c = ',' || c = ';'

/-- Python `rstrip` for a character predicate. -/
def pyRstrip (p : Char → Bool) (s : List Char) : List Char :=
  (s.reverse.dropWhile p).reverse

/-- Acceptance test on a matched URL candidate: strip trailing `.,;`,
then require length `> 10` and a `'.'`. -/
def urlAccept (g : List Char) : Option (List Char) :=
  let u := pyRstrip stripUrlPunct g
  if 10 < u.length ∧ '.' ∈ u then some u else none

/-- One iteration of the URL-pattern loop: search the pattern, and if the
first match fails the acceptance test move on to the next pattern. -/
def urlTry (pat : List Char → Option (List Char)) (msg : List Char) :
    Option (List Char) :=
  match searchFrom pat msg with
  | some g => urlAccept g
  | none => none

/-- The URL-pattern loop: first accepted candidate over the ordered
`url_patterns`. -/
def urlMatchChain (msg : List Char) : Option (List Char) :=
  (urlTry urlPat1At msg).orElse fun _ =>
  (urlTry urlPat2At msg).orElse fun _ =>
  (urlTry urlPat3At msg).orElse fun _ =>
  (urlTry (urlLitDotGroupAt "target".toList isUrlAnyChar) msg).orElse fun _ =>
  (urlTry (urlLitDotGroupAt "backend".toList isUrlAnyChar) msg).orElse fun _ =>
  (urlTry (urlLitDotGroupAt "endpoint".toList isUrlNoPunct) msg).orElse fun _ =>
  urlTry urlBareAt msg

/-- Target-URL extraction with the mock-endpoint default. -/
def extractTargetUrl (msg : List Char) : List Char :=
  (urlMatchChain msg).getD "https://mocktarget.apigee.net/json".toList

/-! ### `RequestParser.extract_proxy_details` — base path -/

/-- First-match loop over the four `base_path_patterns` (searched against
the lowercased message). -/
def basePathMatch (ml : List Char) : Option (List Char) :=
  (searchFrom (litWsGroupAt "base path".toList isPathChar) ml).orElse fun _ =>
  (searchFrom (litWsGroupAt "basepath".toList isPathChar) ml).orElse fun _ =>
  (searchFrom (litWsGroupAt "path".toList isPathChar) ml).orElse fun _ =>
  (searchFrom (litWsGroupAt "with base path".toList isPathChar) ml)

/-- Python `path.strip('/')`. -/
def pyStripSlash (s : List Char) : List Char :=
  ((s.dropWhile (fun c => c = '/')).reverse.dropWhile (fun c => c = '/')).reverse

/-- Base-path extraction: `"/" + path.strip('/')` for the first matched
pattern, default `"/" + proxy_name`. -/
def extractBasePath (ml : List Char) (name : List Char) : List Char :=
  match basePathMatch ml with
  | some g => '/' :: pyStripSlash g
  | none => '/' :: name

/-- The record returned by `RequestParser.extract_proxy_details`. -/
structure ProxyDetails where
  name : List Char
  target_url : List Char
  base_path : List Char
deriving DecidableEq, Repr

/-- `RequestParser.extract_proxy_details`. -/
def extract_proxy_details (msg : List Char) : ProxyDetails :=
  let ml := lowerStr msg
  let name := extractProxyName ml
  { name := name, target_url := extractTargetUrl msg, base_path := extractBasePath ml name }

/-! ### `RequestParser.detect_policies` -/

/-- `any(phrase in message_lower for phrase in phrases)`. -/
def anyPhrase (phrases : List (List Char)) (ml : List Char) : Bool :=
  phrases.any (fun p => containsSub p ml)

def apiKeyCond (ml : List Char) : Bool :=
  anyPhrase ["api key".toList, "apikey".toList, "authentication".toList,
    "verify api key".toList] ml

def corsCond (ml : List Char) : Bool := containsSub "cors".toList ml

def quotaCond (ml : List Char) : Bool :=
  anyPhrase ["quota".toList, "rate limit".toList, "requests per hour".toList,
    "requests per day".toList] ml

def spikeCond (ml : List Char) : Bool :=
  anyPhrase ["spike arrest".toList, "spike".toList, "burst".toList,
    "requests per sec".toList, "per second".toList] ml

def jsCond (ml : List Char) : Bool :=
  anyPhrase ["javascript".toList, "transform".toList, "modify".toList,
    "combine".toList, "js policy".toList] ml

def assignCond (ml : List Char) : Bool :=
  anyPhrase ["assign message".toList, "set variable".toList, "add header".toList,
    "set header".toList] ml

/-- `RequestParser.detect_policies`: fixed append order
VerifyAPIKey, CORS, Quota, SpikeArrest, JavaScript, AssignMessage. -/
def detect_policies (msg : List Char) : List String :=
  let ml := lowerStr msg
  (if apiKeyCond ml then ["VerifyAPIKey"] else []) ++
  (if corsCond ml then ["CORS"] else []) ++
  (if quotaCond ml then ["Quota"] else []) ++
  (if spikeCond ml then ["SpikeArrest"] else []) ++
  (if jsCond ml then ["JavaScript"] else []) ++
  (if assignCond ml then ["AssignMessage"] else [])

/-- The fixed policy-kind enumeration, in detection priority order. -/
def policyEnum : List String :=
  ["VerifyAPIKey", "CORS", "Quota", "SpikeArrest", "JavaScript", "AssignMessage"]

/-! ### `RequestParser.extract_spike_arrest_rate` -/

/-- `\s*per\s*sec` continuation after the digit group. -/
def spikePerSec (g s : List Char) : Option (List Char) := do
  let s2 ← eatLit "per".toList (s.dropWhile isPyWs)
  let _ ← eatLit "sec".toList (s2.dropWhile isPyWs)
  pure g

/-- `\s*per\s*second` continuation after the digit group. -/
def spikePerSecond (g s : List Char) : Option (List Char) := do
  let s2 ← eatLit "per".toList (s.dropWhile isPyWs)
  let _ ← eatLit "second".toList (s2.dropWhile isPyWs)
  pure g

/-- `s?\s*per\s*sec` continuation after the literal `request`. -/
def spikeAfterRequest (g s : List Char) : Option (List Char) :=
  ((eatLit "s".toList s).bind (fun s2 => spikePerSec g s2)).orElse
    (fun _ => spikePerSec g s)

/-- Pattern `(\d+)\s*requests?\s*per\s*sec` at one start position. -/
def spikePat1At (s : List Char) : Option (List Char) :=
  greedyPlus isDigitChar (fun g s1 => do
    let s2 ← eatLit "request".toList (s1.dropWhile isPyWs)
    spikeAfterRequest g s2) s

/-- Pattern `(\d+)\s*per\s*sec` at one start position. -/
def spikePat2At (s : List Char) : Option (List Char) :=
  greedyPlus isDigitChar spikePerSec s

/-- Pattern `(\d+)\s*per\s*second` at one start position. -/
def spikePat3At (s : List Char) : Option (List Char) :=
  greedyPlus isDigitChar spikePerSecond s

/-- Pattern `(\d+)ps` at one start position. -/
def spikePat4At (s : List Char) : Option (List Char) :=
  greedyPlus isDigitChar (fun g s1 =>
    (eatLit "ps".toList s1).map (fun _ => g)) s

/-- Pattern `spike arrest.*?(\d+)` at one start position. -/
def spikePat5At (s : List Char) : Option (List Char) := do
  let s1 ← eatLit "spike arrest".toList s
  lazyDotScan (fun s2 => (takeRun1 isDigitChar s2).map (fun r => r.1)) s1

/-- Pattern `(\d+)\s*req.*?sec` at one start position. -/
def spikePat6At (s : List Char) : Option (List Char) :=
  greedyPlus isDigitChar (fun g s1 => do
    let s2 ← eatLit "req".toList (s1.dropWhile isPyWs)
    lazyDotScan (fun s3 => (eatLit "sec".toList s3).map (fun _ => g)) s2) s

/-- `RequestParser.extract_spike_arrest_rate`: first matching pattern in
order, the digit group suffixed with `"ps"`, default `"10ps"`. -/
def extract_spike_arrest_rate (msg : List Char) : List Char :=
  let ml := lowerStr msg
  match (searchFrom spikePat1At ml).orElse fun _ =>
        (searchFrom spikePat2At ml).orElse fun _ =>
        (searchFrom spikePat3At ml).orElse fun _ =>
        (searchFrom spikePat4At ml).orElse fun _ =>
        (searchFrom spikePat5At ml).orElse fun _ =>
        (searchFrom spikePat6At ml) with
  | some g => g ++ "ps".toList
  | none => "10ps".toList

/-! ### `ApigeeTemplates.generate_proxy_endpoint_xml`

The endpoint renderer classifies policies into flow stages, optionally
emits a fault-rules block, and splices everything into a fixed template.
The `message` argument of the Python method is accepted but unused. -/

/-- One `<Step>` entry as built inside the policy placement loop. -/
def stepXml (policy : String) : String :=
  "      <Step>\n        <Name>" ++ policy ++ "</Name>\n      </Step>"

/-- Policy kinds placed in the PreFlow Request section. -/
def preflowKinds : List String :=
  ["VerifyAPIKey", "CORS", "AssignMessage", "SpikeArrest", "Quota"]

/-- Policy kinds placed in the PostFlow Response section. -/
def postflowKinds : List String := ["JavaScript"]

/-- `preflow_request_steps` accumulated by the placement loop. -/
def preflowRequestSteps : List String → List String
  | [] => []
  | p :: rest =>
    (if p ∈ preflowKinds then [stepXml p] else
      if p ∈ postflowKinds then [] else []) ++ preflowRequestSteps rest

/-- `preflow_response_steps`: initialised empty and never appended to. -/
def preflowResponseSteps (_policies : List String) : List String := []

/-- `postflow_response_steps` accumulated by the placement loop. -/
def postflowResponseSteps : List String → List String
  | [] => []
  | p :: rest =>
    (if p ∈ preflowKinds then [] else
      if p ∈ postflowKinds then [stepXml p] else []) ++ postflowResponseSteps rest

/-- Python `"\n".join` (for a list of step strings; the source guards the
empty list with `if steps else ""`, which joins to `""` anyway). -/
def joinNL : List String → String
  | [] => ""
  | [s] => s
  | s :: rest => s ++ "\n" ++ joinNL rest

/-- The fault-rules block emitted when `VerifyAPIKey` is present. -/
def faultRulesBlock : String :=
  "  <FaultRules>\n    <FaultRule name=\"InvalidAPIKey\">\n      <Step>\n        <Name>AM-InvalidAPIKey</Name>\n      </Step>\n      <Condition>(fault.name Matches \"InvalidApiKeyForGivenResource\") or (fault.name Matches \"InvalidApiKey\")</Condition>\n    </FaultRule>\n  </FaultRules>\n  <DefaultFaultRule name=\"defaultRule\">\n    <Step>\n      <Name>AM-GenericError</Name>\n    </Step>\n  </DefaultFaultRule>"

/-- `fault_rules_xml`: the block if and only if `"VerifyAPIKey"` occurs in
the policies list, otherwise the empty string. -/
def faultRulesXml (policies : List String) : String :=
  if "VerifyAPIKey" ∈ policies then faultRulesBlock else ""

/-- The fixed `flows_xml` fragment. -/
def flowsXml : String :=
  "  <Flows>\n    <Flow name=\"MainFlow\">\n      <Description>Main API flow</Description>\n      <Request/>\n      <Response/>\n      <Condition>proxy.pathsuffix MatchesPath \"/**\"</Condition>\n    </Flow>\n  </Flows>"

/-- Template segment before the proxy name. -/
def epSegA : String :=
  "<?xml version=\"1.0\" encoding=\"UTF-8\" standalone=\"yes\"?>\n<ProxyEndpoint name=\"default\">\n  <Description>"

/-- Template segment between the proxy name and the fault-rules hole. -/
def epSegB : String := " proxy endpoint</Description>\n"

/-- Template segment between the fault-rules hole and the PreFlow Request
steps. -/
def epSegC : String := "\n  <PreFlow name=\"PreFlow\">\n    <Request>\n"

/-- Template segment between the PreFlow Request and Response steps. -/
def epSegD : String := "\n    </Request>\n    <Response>\n"

/-- Template segment between the PreFlow Response and PostFlow Response
steps. -/
def epSegE : String :=
  "\n    </Response>\n  </PreFlow>\n  <PostFlow name=\"PostFlow\">\n    <Request/>\n    <Response>\n"

/-- Template segment between the PostFlow Response steps and the base
path, with `flows_xml` spliced in. -/
def epSegF : String :=
  "\n    </Response>\n  </PostFlow>\n" ++ flowsXml ++
  "\n  <HTTPProxyConnection>\n    <BasePath>"

/-- Template segment after the base path. -/
def epSegG : String :=
  "</BasePath>\n    <Properties/>\n  </HTTPProxyConnection>\n  <RouteRule name=\"default\">\n    <TargetEndpoint>default</TargetEndpoint>\n  </RouteRule>\n</ProxyEndpoint>"

/-- `ApigeeTemplates.generate_proxy_endpoint_xml`. -/
def generate_proxy_endpoint_xml (name base_path : String) (policies : List String)
    (_message : String := "") : String :=
  epSegA ++ name ++ epSegB ++ faultRulesXml policies ++ epSegC ++
  joinNL (preflowRequestSteps policies) ++ epSegD ++
  joinNL (preflowResponseSteps policies) ++ epSegE ++
  joinNL (postflowResponseSteps policies) ++ epSegF ++ base_path ++ epSegG

/-! ### `ApigeeTemplates.generate_policy_xml` -/

/-- SpikeArrest template up to the rate value. -/
def spikeRatePre : String :=
  "<?xml version=\"1.0\" encoding=\"UTF-8\" standalone=\"yes\"?>\n<SpikeArrest async=\"false\" continueOnError=\"false\" enabled=\"true\" name=\"SpikeArrest\">\n  <DisplayName>Spike Arrest</DisplayName>\n  <Rate>"

/-- SpikeArrest template after the rate value. -/
def spikeRateSuf : String :=
  "</Rate>\n  <UseEffectiveCount>true</UseEffectiveCount>\n</SpikeArrest>"

/-- The canned `VerifyAPIKey` policy body. -/
def verifyApiKeyXml : String :=
  "<?xml version=\"1.0\" encoding=\"UTF-8\" standalone=\"yes\"?>\n<VerifyAPIKey async=\"false\" continueOnError=\"false\" enabled=\"true\" name=\"VerifyAPIKey\">\n  <DisplayName>Verify API Key</DisplayName>\n  <APIKey ref=\"request.queryparam.apikey\"/>\n</VerifyAPIKey>"

/-- The canned `JavaScript` policy body. -/
def javascriptXml : String :=
  "<?xml version=\"1.0\" encoding=\"UTF-8\" standalone=\"yes\"?>\n<Javascript async=\"false\" continueOnError=\"false\" enabled=\"true\" name=\"JavaScript\">\n  <DisplayName>JavaScript Transformation</DisplayName>\n  <ResourceURL>jsc://transformation.js</ResourceURL>\n</Javascript>"

/-- The canned `AssignMessage` policy body. -/
def assignMessageXml : String :=
  "<?xml version=\"1.0\" encoding=\"UTF-8\" standalone=\"yes\"?>\n<AssignMessage continueOnError=\"false\" enabled=\"true\" name=\"AssignMessage\">\n  <DisplayName>Assign Message</DisplayName>\n  <Properties/>\n  <Set>\n    <Headers>\n      <Header name=\"X-Processed-By\">Apigee</Header>\n    </Headers>\n  </Set>\n  <AssignVariable>\n    <Name>request.timestamp</Name>\n    <Value>\x7bsystem.timestamp\x7d</Value>\n  </AssignVariable>\n  <IgnoreUnresolvedVariables>true</IgnoreUnresolvedVariables>\n  <AssignTo createNew=\"false\" transport=\"http\" type=\"request\"/>\n</AssignMessage>"

/-- The canned `CORS` policy body. -/
def corsXml : String :=
  "<?xml version=\"1.0\" encoding=\"UTF-8\" standalone=\"yes\"?>\n<CORS async=\"false\" continueOnError=\"false\" enabled=\"true\" name=\"CORS\">\n  <DisplayName>CORS Policy</DisplayName>\n  <AllowOrigins>*</AllowOrigins>\n  <AllowMethods>GET,POST,PUT,DELETE,OPTIONS</AllowMethods>\n  <AllowHeaders>Content-Type,Authorization,X-Requested-With</AllowHeaders>\n  <MaxAge>3628800</MaxAge>\n  <AllowCredentials>false</AllowCredentials>\n  <GeneratePreflightResponse>true</GeneratePreflightResponse>\n</CORS>"

/-- The canned `Quota` policy body. -/
def quotaXml : String :=
  "<?xml version=\"1.0\" encoding=\"UTF-8\" standalone=\"yes\"?>\n<Quota async=\"false\" continueOnError=\"false\" enabled=\"true\" name=\"Quota\">\n  <DisplayName>Quota Policy</DisplayName>\n  <Allow count=\"1000\"/>\n  <Interval>1</Interval>\n  <TimeUnit>hour</TimeUnit>\n  <Identifier ref=\"client_id\"/>\n  <Distributed>true</Distributed>\n  <Synchronous>true</Synchronous>\n</Quota>"

/-- Fallback body for a policy kind without a canned template. -/
def genericPolicyXml (policy_name : String) : String :=
  "<?xml version=\"1.0\" encoding=\"UTF-8\" standalone=\"yes\"?>\n<" ++ policy_name ++
  " name=\"" ++ policy_name ++ "\">\n  <DisplayName>" ++ policy_name ++
  "</DisplayName>\n</" ++ policy_name ++ ">"

/-- `ApigeeTemplates.generate_policy_xml`: canned dictionary lookup, with
the SpikeArrest rate recomputed from the original request text at render
time. -/
def generate_policy_xml (policy_name : String) (message : List Char) : String :=
  if policy_name = "SpikeArrest" then
    spikeRatePre ++ String.mk (extract_spike_arrest_rate message) ++ spikeRateSuf
  else if policy_name = "VerifyAPIKey" then verifyApiKeyXml
  else if policy_name = "JavaScript" then javascriptXml
  else if policy_name = "AssignMessage" then assignMessageXml
  else if policy_name = "CORS" then corsXml
  else if policy_name = "Quota" then quotaXml
  else genericPolicyXml policy_name

/-! ### `ApigeeService.create_proxy_bundle` — policy descriptor files

Lines 150-154 of `services/apigee_service.py` write one descriptor file
`policies/<policy>.xml` per detected policy kind. -/

/-- The archive-relative policy descriptor files written by
`create_proxy_bundle`. -/
def bundlePolicyFiles (policies : List String) : List String :=
  policies.map (fun p => "policies/" ++ p ++ ".xml")

/-! ### `ApigeeService.deploy_to_apigee` — credential environment effect

`deploy_to_apigee` reads `APIGEE_TOKEN`, overwrites it when a non-empty
token argument is supplied, performs the upload, and in a `finally`
block restores the saved value only when both the supplied token and the
saved value are non-empty.  The surrounding `except` catches every
failure, so the environment effect is identical on the success and the
failure path.  The model returns the success flag together with the
value of `APIGEE_TOKEN` after the call; `none` models an unset
variable. -/

/-- Python truthiness of `os.getenv` results: unset and empty are falsy. -/
def strTruthy : Option String → Bool
  | none => false
  | some s => !s.isEmpty

/-- Environment effect and outcome of `deploy_to_apigee`:
`pre` is the value of `APIGEE_TOKEN` before the call, `token` the
explicit argument (default `None`), `httpOk` whether the upload request
returns a status below 400. -/
def deploy_to_apigee_model (pre token : Option String) (httpOk : Bool) :
    Bool × Option String :=
  let envDuring := if strTruthy token then token else pre
  let success := strTruthy envDuring && httpOk
  let envAfter := if strTruthy token && strTruthy pre then pre else envDuring
  (success, envAfter)

/-! ### Spec-side URL well-formedness

Modelled from the spec: the claim C1 invariant speaks of "a syntactically
well-formed absolute URL (scheme + host)"; this predicate follows those
words (an `http://` or `https://` scheme followed by a non-empty host
component, the host ending at the first `/`, `?` or `#`). -/

/-- Character that ends the host component of a URL. -/
def endsHost (c : Char) : Bool := c = '/' || c = '?' || c = '#'

/-- Spec-worded predicate: scheme plus non-empty host. -/
def wellFormedAbsoluteUrl (u : List Char) : Bool :=
  ("http://".toList.isPrefixOf u &&
    !((u.drop 7).takeWhile (fun c => !endsHost c)).isEmpty) ||
  ("https://".toList.isPrefixOf u &&
    !((u.drop 8).takeWhile (fun c => !endsHost c)).isEmpty)

/-- A matched URL group starts, case-insensitively, with `http://` or
`https://`. -/
def schemeOkCI (u : List Char) : Prop :=
  "http://".toList <+: lowerStr u ∨ "https://".toList <+: lowerStr u

/-- ASCII uppercase letter. -/
def isUpperA (c : Char) : Bool :=
  decide (65 ≤ c.toNat) && decide (c.toNat ≤ 90)

/-- Occurrence-freedom usable across concatenations: the needle is not
an infix of the segment, and no nonempty proper prefix of the needle is
a suffix of the segment (so no occurrence can straddle the segment's
right boundary). -/
def SafeSeg (n x : List Char) : Prop :=
  ¬ n <:+: x ∧ ∀ k, 0 < k → k < n.length → ¬ n.take k <:+ x

/-- Boolean check for `SafeSeg`, evaluated on concrete segments. -/
def safeSegB (n x : List Char) : Bool :=
  !containsSub n x &&
    (List.range n.length).all (fun k => decide (k = 0) || !(n.take k).isSuffixOf x)

/-- The fault-rules needle. -/
def frNeedle : List Char := "<FaultRules>".toList

/-! ### Combinator specification lemmas -/

theorem orElse_eq_some_cases {α : Type} {a : Option α} {f : Unit → Option α} {v : α}
    (h : a.orElse f = some v) : a = some v ∨ f () = some v := by
  cases a with
  | none => right; simpa [Option.orElse] using h
  | some w => left; simpa [Option.orElse] using h

theorem mem_of_suffix {t s : List Char} (h : t <:+ s) {c : Char} (hc : c ∈ t) :
    c ∈ s := h.subset hc

theorem searchFrom_some {α : Type} {step : List Char → Option α} :
    ∀ {s : List Char} {v : α}, searchFrom step s = some v →
      ∃ t, t <:+ s ∧ step t = some v
  | [], v, h => ⟨[], List.nil_suffix, by simpa [searchFrom] using h⟩
  | c :: s, v, h => by
    simp only [searchFrom] at h
    rcases orElse_eq_some_cases h with h1 | h1
    · exact ⟨c :: s, List.suffix_refl _, h1⟩
    · obtain ⟨t, ht, hstep⟩ := searchFrom_some h1
      exact ⟨t, ht.trans (List.suffix_cons c s), hstep⟩

theorem lazyDotScan_some {α : Type} {k : List Char → Option α} :
    ∀ {s : List Char} {v : α}, lazyDotScan k s = some v →
      ∃ t, t <:+ s ∧ k t = some v
  | [], v, h => ⟨[], List.nil_suffix, by simpa [lazyDotScan] using h⟩
  | c :: s, v, h => by
    simp only [lazyDotScan] at h
    rcases orElse_eq_some_cases h with h1 | h1
    · exact ⟨c :: s, List.suffix_refl _, h1⟩
    · by_cases hc : c = '\n'
      · rw [if_pos hc] at h1; cases h1
      · rw [if_neg hc] at h1
        obtain ⟨t, ht, hk⟩ := lazyDotScan_some h1
        exact ⟨t, ht.trans (List.suffix_cons c s), hk⟩

theorem eatLit_some : ∀ {lit s r : List Char}, eatLit lit s = some r → s = lit ++ r := by
  intro lit
  induction lit with
  | nil =>
    intro s r h
    simp only [eatLit, Option.some.injEq] at h
    simpa using h
  | cons l ls ih =>
    intro s r h
    cases s with
    | nil => cases h
    | cons c cs =>
      simp only [eatLit] at h
      by_cases hc : c = l
      · rw [if_pos hc] at h
        have := ih h
        simp [hc, this]
      · rw [if_neg hc] at h; cases h

theorem eatLitCI_some : ∀ {lit s : List Char} {gr : List Char × List Char},
    eatLitCI lit s = some gr → s = gr.1 ++ gr.2 ∧ lowerStr gr.1 = lit := by
  intro lit
  induction lit with
  | nil =>
    intro s gr h
    simp only [eatLitCI, Option.some.injEq] at h
    subst h; simp [lowerStr]
  | cons l ls ih =>
    intro s gr h
    cases s with
    | nil => cases h
    | cons c cs =>
      simp only [eatLitCI] at h
      by_cases hc : pyLower c = l
      · rw [if_pos hc] at h
        rcases Option.map_eq_some'.mp h with ⟨gr', hgr', hmap⟩
        obtain ⟨heq, hlow⟩ := ih hgr'
        subst hmap
        constructor
        · simpa using heq
        · simp [lowerStr] at hlow ⊢
          exact ⟨hc, hlow⟩
      · rw [if_neg hc] at h; cases h

theorem takeRun1_some {p : Char → Bool} {s : List Char} {gr : List Char × List Char}
    (h : takeRun1 p s = some gr) :
    gr.1 ≠ [] ∧ gr.1.all p = true ∧ s = gr.1 ++ gr.2 := by
  unfold takeRun1 at h
  by_cases he : (s.takeWhile p).isEmpty
  · simp [he] at h
  · rw [if_neg he] at h
    have hgr : gr = (s.takeWhile p, s.dropWhile p) := by
      simpa using h.symm
    subst hgr
    refine ⟨by simpa [List.isEmpty_iff] using he, ?_, ?_⟩
    · simp only [List.all_eq_true]
      intro c hc
      exact List.mem_takeWhile_imp hc
    · simp [List.takeWhile_append_dropWhile]

theorem greedyAux_some {α : Type} {p : Char → Bool} {k : List Char → List Char → Option α} :
    ∀ {t acc : List Char} {v : α}, acc.reverse.all p = true →
      greedyAux p k acc t = some v →
      ∃ g r, g.all p = true ∧ acc.length ≤ g.length ∧ acc.reverse ++ t = g ++ r ∧
        k g r = some v
  | [], acc, v, hacc, h =>
    ⟨acc.reverse, [], hacc, by simp, by simp, by simpa [greedyAux] using h⟩
  | c :: t, acc, v, hacc, h => by
    simp only [greedyAux] at h
    by_cases hc : p c
    · rw [if_pos hc] at h
      rcases orElse_eq_some_cases h with h1 | h1
      · have hacc' : (c :: acc).reverse.all p = true := by
          simp only [List.reverse_cons, List.all_append, List.all_cons, List.all_nil]
          simp [hacc, hc]
        obtain ⟨g, r, hg, hlen, heq, hk⟩ := greedyAux_some hacc' h1
        refine ⟨g, r, hg, ?_, ?_, hk⟩
        · simp only [List.length_cons] at hlen; omega
        · rw [← heq]; simp
      · exact ⟨acc.reverse, c :: t, hacc, by simp, rfl, h1⟩
    · rw [if_neg hc] at h
      exact ⟨acc.reverse, c :: t, hacc, by simp, rfl, h⟩

theorem greedyPlus_some {α : Type} {p : Char → Bool} {k : List Char → List Char → Option α}
    {s : List Char} {v : α} (h : greedyPlus p k s = some v) :
    ∃ g r, g ≠ [] ∧ g.all p = true ∧ s = g ++ r ∧ k g r = some v := by
  cases s with
  | nil => cases h
  | cons c t =>
    simp only [greedyPlus] at h
    by_cases hc : p c
    · rw [if_pos hc] at h
      have hacc : ([c] : List Char).reverse.all p = true := by simp [hc]
      obtain ⟨g, r, hg, hlen, heq, hk⟩ := greedyAux_some hacc h
      refine ⟨g, r, ?_, hg, by simpa using heq, hk⟩
      intro hnil
      simp [hnil] at hlen
    · rw [if_neg hc] at h; cases h

theorem litWsGroupAt_spec {lit : List Char} {cls : Char → Bool} {s g : List Char}
    (h : litWsGroupAt lit cls s = some g) :
    g ≠ [] ∧ g.all cls = true ∧ ∀ c ∈ g, c ∈ s := by
  simp only [litWsGroupAt, bind, Option.bind_eq_some, pure, Option.some.injEq] at h
  obtain ⟨s1, h1, r1, hr1, r2, hr2, hg⟩ := h
  obtain ⟨hne, hall, heq⟩ := takeRun1_some hr2
  obtain ⟨_, _, heq1⟩ := takeRun1_some hr1
  have hs := eatLit_some h1
  subst hg
  refine ⟨hne, hall, ?_⟩
  intro c hc
  rw [hs, heq1, heq]
  simp [hc]

/-! ### Captured-group facts for the name and base-path patterns -/

theorem namePat4At_spec {s g : List Char} (h : namePat4At s = some g) :
    g ≠ [] ∧ g.all isNameChar = true ∧ ∀ c ∈ g, c ∈ s := by
  simp only [namePat4At, bind, Option.bind_eq_some] at h
  obtain ⟨s1, h1, h⟩ := h
  obtain ⟨t2, ht2, h⟩ := lazyDotScan_some h
  have hs1 := eatLit_some h1
  have hfin : ∀ {s3 : List Char}, s3 <:+ t2 →
      lazyDotScan (litWsGroupAt "named".toList isNameChar) s3 = some g →
      g ≠ [] ∧ g.all isNameChar = true ∧ ∀ c ∈ g, c ∈ s := by
    intro s3 hs3 hh
    obtain ⟨t4, ht4, hh⟩ := lazyDotScan_some hh
    obtain ⟨hne, hall, hmem⟩ := litWsGroupAt_spec hh
    refine ⟨hne, hall, ?_⟩
    intro c hc
    have : c ∈ t2 := mem_of_suffix hs3 (mem_of_suffix ht4 (hmem c hc))
    have : c ∈ s1 := mem_of_suffix ht2 this
    rw [hs1]; simp [this]
  rcases orElse_eq_some_cases h with h | h
  · rcases Option.bind_eq_some.mp h with ⟨s3, h3, hh⟩
    exact hfin ⟨"proxy".toList, (eatLit_some h3).symm⟩ hh
  · rcases Option.bind_eq_some.mp h with ⟨s3, h3, hh⟩
    exact hfin ⟨"api".toList, (eatLit_some h3).symm⟩ hh

theorem namePat5At_spec {s g : List Char} (h : namePat5At s = some g) :
    g ≠ [] ∧ g.all isNameChar = true ∧ ∀ c ∈ g, c ∈ s := by
  simp only [namePat5At, bind, Option.bind_eq_some] at h
  obtain ⟨s1, h1, h⟩ := h
  obtain ⟨t2, ht2, h⟩ := lazyDotScan_some h
  obtain ⟨g', r, hne, hall, heq, hk⟩ := greedyPlus_some h
  obtain ⟨t4, ht4, hk⟩ := lazyDotScan_some hk
  have hg : g = g' := by
    rcases orElse_eq_some_cases hk with hk | hk <;>
      rcases Option.map_eq_some'.mp hk with ⟨_, _, hgg⟩ <;> exact hgg.symm
  subst hg
  refine ⟨hne, hall, ?_⟩
  intro c hc
  have hct2 : c ∈ t2 := by rw [heq]; simp [hc]
  have : c ∈ s1 := mem_of_suffix ht2 hct2
  rw [eatLit_some h1]; simp [this]

theorem nameMatch_spec {ml g : List Char} (h : nameMatch ml = some g) :
    g ≠ [] ∧ g.all isNameChar = true ∧ ∀ c ∈ g, c ∈ ml := by
  have hlit : ∀ {lit : List Char},
      searchFrom (litWsGroupAt lit isNameChar) ml = some g →
      g ≠ [] ∧ g.all isNameChar = true ∧ ∀ c ∈ g, c ∈ ml := by
    intro lit hs
    obtain ⟨t, ht, hstep⟩ := searchFrom_some hs
    obtain ⟨hne, hall, hmem⟩ := litWsGroupAt_spec hstep
    exact ⟨hne, hall, fun c hc => mem_of_suffix ht (hmem c hc)⟩
  unfold nameMatch at h
  rcases orElse_eq_some_cases h with h | h
  · exact hlit h
  rcases orElse_eq_some_cases h with h | h
  · exact hlit h
  rcases orElse_eq_some_cases h with h | h
  · exact hlit h
  rcases orElse_eq_some_cases h with h | h
  · obtain ⟨t, ht, hstep⟩ := searchFrom_some h
    obtain ⟨hne, hall, hmem⟩ := namePat4At_spec hstep
    exact ⟨hne, hall, fun c hc => mem_of_suffix ht (hmem c hc)⟩
  rcases orElse_eq_some_cases h with h | h
  · obtain ⟨t, ht, hstep⟩ := searchFrom_some h
    obtain ⟨hne, hall, hmem⟩ := namePat5At_spec hstep
    exact ⟨hne, hall, fun c hc => mem_of_suffix ht (hmem c hc)⟩
  rcases orElse_eq_some_cases h with h | h
  · exact hlit h
  · exact hlit h

theorem basePathMatch_spec {ml g : List Char} (h : basePathMatch ml = some g) :
    g ≠ [] ∧ g.all isPathChar = true ∧ ∀ c ∈ g, c ∈ ml := by
  have hlit : ∀ {lit : List Char},
      searchFrom (litWsGroupAt lit isPathChar) ml = some g →
      g ≠ [] ∧ g.all isPathChar = true ∧ ∀ c ∈ g, c ∈ ml := by
    intro lit hs
    obtain ⟨t, ht, hstep⟩ := searchFrom_some hs
    obtain ⟨hne, hall, hmem⟩ := litWsGroupAt_spec hstep
    exact ⟨hne, hall, fun c hc => mem_of_suffix ht (hmem c hc)⟩
  unfold basePathMatch at h
  rcases orElse_eq_some_cases h with h | h
  · exact hlit h
  rcases orElse_eq_some_cases h with h | h
  · exact hlit h
  rcases orElse_eq_some_cases h with h | h
  · exact hlit h
  · exact hlit h

/-! ### Scheme-prefix facts for the URL patterns -/

theorem urlGroupAt_schemeOk {cls : Char → Bool} {s g : List Char}
    (h : urlGroupAt cls s = some g) : schemeOkCI g := by
  have hnos : ∀ {s0 : List Char} {c1 : List Char}, lowerStr c1 = "http".toList →
      (eatLitCI "://".toList s0).bind (fun r3 =>
        (takeRun1 cls r3.2).map (fun r4 => c1 ++ r3.1 ++ r4.1)) = some g →
      schemeOkCI g := by
    intro s0 c1 hc1 hh
    rcases Option.bind_eq_some.mp hh with ⟨r3, h3, hh⟩
    rcases Option.map_eq_some'.mp hh with ⟨r4, _, hg⟩
    left
    subst hg
    have h3l := (eatLitCI_some h3).2
    simp only [lowerStr] at hc1 h3l
    refine ⟨lowerStr r4.1, ?_⟩
    simp only [lowerStr, List.map_append]
    rw [hc1, h3l]
    simp
  simp only [urlGroupAt, bind, Option.bind_eq_some] at h
  obtain ⟨r1, h1, h⟩ := h
  have hc1 := (eatLitCI_some h1).2
  cases hs : eatLitCI "s".toList r1.2 with
  | none =>
    rw [hs] at h
    exact hnos hc1 h
  | some r2 =>
    rw [hs] at h
    rcases orElse_eq_some_cases h with h | h
    · rcases Option.bind_eq_some.mp h with ⟨r3, h3, hh⟩
      rcases Option.map_eq_some'.mp hh with ⟨r4, _, hg⟩
      right
      subst hg
      have h2l := (eatLitCI_some hs).2
      have h3l := (eatLitCI_some h3).2
      simp only [lowerStr] at hc1 h2l h3l
      refine ⟨lowerStr r4.1, ?_⟩
      simp only [lowerStr, List.map_append]
      rw [hc1, h2l, h3l]
      simp
    · exact hnos hc1 h

theorem urlAltTail_schemeOk {lit s g : List Char} (h : urlAltTail lit s = some g) :
    schemeOkCI g := by
  simp only [urlAltTail, bind, Option.bind_eq_some] at h
  obtain ⟨r, _, h⟩ := h
  exact urlGroupAt_schemeOk h

theorem urlPat1At_schemeOk {s g : List Char} (h : urlPat1At s = some g) :
    schemeOkCI g := by
  simp only [urlPat1At, bind, Option.bind_eq_some] at h
  obtain ⟨r, _, h⟩ := h
  exact urlGroupAt_schemeOk h

theorem urlPat2At_schemeOk {s g : List Char} (h : urlPat2At s = some g) :
    schemeOkCI g := by
  simp only [urlPat2At, bind, Option.bind_eq_some] at h
  obtain ⟨r1, _, h⟩ := h
  obtain ⟨t2, _, h⟩ := lazyDotScan_some h
  simp only [bind, Option.bind_eq_some] at h
  obtain ⟨r2, _, h⟩ := h
  obtain ⟨t4, _, h⟩ := lazyDotScan_some h
  rcases orElse_eq_some_cases h with h | h
  · exact urlAltTail_schemeOk h
  rcases orElse_eq_some_cases h with h | h
  · exact urlAltTail_schemeOk h
  · exact urlAltTail_schemeOk h

theorem urlPat3At_schemeOk {s g : List Char} (h : urlPat3At s = some g) :
    schemeOkCI g := by
  simp only [urlPat3At, bind, Option.bind_eq_some] at h
  obtain ⟨r1, _, h⟩ := h
  obtain ⟨r2, _, h⟩ := h
  exact urlGroupAt_schemeOk h

theorem urlLitDotGroupAt_schemeOk {lit s g : List Char} {cls : Char → Bool}
    (h : urlLitDotGroupAt lit cls s = some g) : schemeOkCI g := by
  simp only [urlLitDotGroupAt, bind, Option.bind_eq_some] at h
  obtain ⟨r1, _, h⟩ := h
  obtain ⟨t, _, h⟩ := lazyDotScan_some h
  exact urlGroupAt_schemeOk h

/-- The prefix kept by `rstrip`. -/
theorem pyRstrip_pref (p : Char → Bool) (s : List Char) : pyRstrip p s <+: s :=
  ⟨(s.reverse.takeWhile p).reverse, by
    rw [pyRstrip, ← List.reverse_append, List.takeWhile_append_dropWhile,
      List.reverse_reverse]⟩

theorem pref_map {l₁ l₂ : List Char} (f : Char → Char) (h : l₁ <+: l₂) :
    l₁.map f <+: l₂.map f := by
  obtain ⟨t, ht⟩ := h
  exact ⟨t.map f, by rw [← List.map_append, ht]⟩

/-- The scheme prefix survives `rstrip('.,;')` whenever the stripped
candidate is long enough (the acceptance check requires length `> 10`). -/
theorem schemeOk_pyRstrip {g : List Char} (hg : schemeOkCI g)
    (hlen : 10 < (pyRstrip stripUrlPunct g).length) :
    schemeOkCI (pyRstrip stripUrlPunct g) := by
  have hmap : lowerStr (pyRstrip stripUrlPunct g) <+: lowerStr g :=
    pref_map pyLower (pyRstrip_pref _ _)
  have hlen2 : (8 : Nat) ≤ (lowerStr (pyRstrip stripUrlPunct g)).length := by
    simp only [lowerStr, List.length_map]; omega
  rcases hg with h | h
  · exact Or.inl (List.prefix_of_prefix_length_le h hmap (by
      simp at hlen2 ⊢; omega))
  · exact Or.inr (List.prefix_of_prefix_length_le h hmap (by
      simp at hlen2 ⊢; omega))

theorem urlTry_spec {pat : List Char → Option (List Char)} {msg u : List Char}
    (hpat : ∀ {t g : List Char}, pat t = some g → schemeOkCI g)
    (h : urlTry pat msg = some u) :
    schemeOkCI u ∧ 10 < u.length ∧ '.' ∈ u := by
  unfold urlTry at h
  cases hs : searchFrom pat msg with
  | none => rw [hs] at h; cases h
  | some g =>
    rw [hs] at h
    have h2 : urlAccept g = some u := h
    simp only [urlAccept] at h2
    by_cases hcond : 10 < (pyRstrip stripUrlPunct g).length ∧
        '.' ∈ pyRstrip stripUrlPunct g
    · rw [if_pos hcond] at h2
      have hu : pyRstrip stripUrlPunct g = u := by simpa using h2
      obtain ⟨t, _, hstep⟩ := searchFrom_some hs
      have := schemeOk_pyRstrip (hpat hstep) hcond.1
      rw [hu] at this
      exact ⟨this, hu ▸ hcond.1, hu ▸ hcond.2⟩
    · rw [if_neg hcond] at h2; cases h2

/-! ### Claim C8 -/

/-- Claim C8: on the booking-api scenario input, `extract_proxy_details`
returns name `booking-api`, base path `/booking` and target
`https://backend.example.com/api` (trailing sentence period stripped),
and `detect_policies` returns exactly `["VerifyAPIKey"]`. -/
theorem claim_C8 :
    extract_proxy_details "Create an Apigee API proxy named booking-api with base path /booking pointing to https://backend.example.com/api. Add a VerifyAPIKey policy to all requests.".toList =
      { name := "booking-api".toList,
        target_url := "https://backend.example.com/api".toList,
        base_path := "/booking".toList } ∧
    detect_policies "Create an Apigee API proxy named booking-api with base path /booking pointing to https://backend.example.com/api. Add a VerifyAPIKey policy to all requests.".toList =
      ["VerifyAPIKey"] := by
  constructor <;> decide

/-! ### Claim C10 -/

theorem pyLower_not_upperA (c : Char) : isUpperA (pyLower c) = false := by
  unfold pyLower
  by_cases h : 65 ≤ c.toNat ∧ c.toNat ≤ 90
  · rw [if_pos h]
    obtain ⟨h1, h2⟩ := h
    generalize c.toNat = n at h1 h2
    interval_cases n <;> decide
  · rw [if_neg h]
    simp only [isUpperA, Bool.and_eq_false_iff, decide_eq_false_iff_not]
    omega

theorem mem_dropWhile_sub {p : Char → Bool} {l : List Char} {c : Char}
    (h : c ∈ l.dropWhile p) : c ∈ l := by
  have h2 : c ∈ l.takeWhile p ++ l.dropWhile p := List.mem_append.mpr (Or.inr h)
  rwa [List.takeWhile_append_dropWhile] at h2

theorem mem_pyStripSlash {s : List Char} {c : Char} (h : c ∈ pyStripSlash s) :
    c ∈ s := by
  unfold pyStripSlash at h
  rw [List.mem_reverse] at h
  have h2 := mem_dropWhile_sub h
  rw [List.mem_reverse] at h2
  exact mem_dropWhile_sub h2

theorem extractProxyName_not_upper {ml : List Char}
    (hml : ∀ c ∈ ml, isUpperA c = false) {c : Char}
    (hc : c ∈ extractProxyName ml) : isUpperA c = false := by
  unfold extractProxyName at hc
  cases hm : nameMatch ml with
  | none =>
    rw [hm] at hc
    exact (by decide :
      ∀ x ∈ ("generated-proxy".toList : List Char), isUpperA x = false) c hc
  | some g =>
    rw [hm] at hc
    simp only [List.mem_map] at hc
    obtain ⟨d, hd, hdc⟩ := hc
    by_cases hsp : d = ' '
    · rw [if_pos hsp] at hdc; subst hdc; decide
    · rw [if_neg hsp] at hdc; subst hdc
      exact hml d ((nameMatch_spec hm).2.2 d hd)

/-- Claim C10: the name and base-path fields returned by
`extract_proxy_details` never contain an ASCII uppercase letter, because
the name and base-path patterns are matched against the lowercased
message (and the defaults are lowercase); in particular an input saying
`proxy named Booking-API` yields the name `booking-api`. -/
theorem claim_C10 (msg : List Char) :
    ((extract_proxy_details msg).name.all (fun c => !isUpperA c) &&
      (extract_proxy_details msg).base_path.all (fun c => !isUpperA c)) = true ∧
    (extract_proxy_details "proxy named Booking-API".toList).name =
      "booking-api".toList := by
  refine ⟨?_, by decide⟩
  have hml : ∀ c ∈ lowerStr msg, isUpperA c = false := by
    intro c hc
    simp only [lowerStr, List.mem_map] at hc
    obtain ⟨d, _, rfl⟩ := hc
    exact pyLower_not_upperA d
  have hname : ∀ c ∈ extractProxyName (lowerStr msg), isUpperA c = false :=
    fun c hc => extractProxyName_not_upper hml hc
  have hbase : ∀ c ∈ extractBasePath (lowerStr msg) (extractProxyName (lowerStr msg)),
      isUpperA c = false := by
    intro c hc
    unfold extractBasePath at hc
    cases hm : basePathMatch (lowerStr msg) with
    | none =>
      rw [hm] at hc
      rcases List.mem_cons.mp hc with rfl | hc2
      · decide
      · exact hname c hc2
    | some g =>
      rw [hm] at hc
      rcases List.mem_cons.mp hc with rfl | hc2
      · decide
      · exact hml c ((basePathMatch_spec hm).2.2 c (mem_pyStripSlash hc2))
  simp only [Bool.and_eq_true, List.all_eq_true, Bool.not_eq_true']
  exact ⟨fun c hc => hname c hc, fun c hc => hbase c hc⟩

/-! ### Claim C9 -/

theorem isPrefixOf_append {n : List Char} :
    ∀ {h k : List Char}, n.isPrefixOf h = true → n.isPrefixOf (h ++ k) = true := by
  induction n with
  | nil => intro h k _; simp [List.isPrefixOf]
  | cons a as ih =>
    intro h k hp
    cases h with
    | nil => simp [List.isPrefixOf] at hp
    | cons b bs =>
      simp only [List.isPrefixOf, Bool.and_eq_true] at hp ⊢
      exact ⟨hp.1, ih hp.2⟩

theorem containsSub_nil_true : ∀ (k : List Char), containsSub [] k = true
  | [] => by simp [containsSub]
  | _ :: t => by simp [containsSub, List.isPrefixOf]

theorem containsSub_append {n : List Char} :
    ∀ {h k : List Char}, containsSub n h = true → containsSub n (h ++ k) = true := by
  intro h
  induction h with
  | nil =>
    intro k hc
    simp only [containsSub, List.isEmpty_iff] at hc
    subst hc
    simpa using containsSub_nil_true k
  | cons c t ih =>
    intro k hc
    simp only [containsSub, Bool.or_eq_true] at hc ⊢
    rcases hc with hc | hc
    · exact Or.inl (isPrefixOf_append hc)
    · exact Or.inr (ih hc)

theorem anyPhrase_append {phrases : List (List Char)} {ml k : List Char}
    (h : anyPhrase phrases ml = true) : anyPhrase phrases (ml ++ k) = true := by
  simp only [anyPhrase, List.any_eq_true] at h ⊢
  obtain ⟨x, hx, hc⟩ := h
  exact ⟨x, hx, containsSub_append hc⟩

theorem containsSub_cons_of {n x : List Char} (c : Char)
    (h : containsSub n x = true) : containsSub n (c :: x) = true := by
  simp [containsSub, h]

theorem containsSub_preApp {n : List Char} :
    ∀ (u : List Char) {x : List Char}, containsSub n x = true →
      containsSub n (u ++ x) = true
  | [], _, h => h
  | c :: u, _, h => containsSub_cons_of c (containsSub_preApp u h)

theorem containsSub_infix_mono {n t t2 : List Char}
    (h : containsSub n t = true) (hin : t <:+: t2) : containsSub n t2 = true := by
  obtain ⟨u, v, rfl⟩ := hin
  rw [List.append_assoc]
  exact containsSub_preApp u (containsSub_append h)

theorem anyPhrase_infix_mono {phrases : List (List Char)} {ml ml2 : List Char}
    (h : anyPhrase phrases ml = true) (hin : ml <:+: ml2) :
    anyPhrase phrases ml2 = true := by
  simp only [anyPhrase, List.any_eq_true] at h ⊢
  obtain ⟨x, hx, hc⟩ := h
  exact ⟨x, hx, containsSub_infix_mono hc hin⟩

/-- Claim C9: policy-kind detection is monotone under adding text around
the message: whenever `t` occurs contiguously inside `t2` — in particular
when `t2` is `t` with a recognized keyword appended — every policy kind
detected in `t` is also detected in `t2`. -/
theorem claim_C9 (t t2 : List Char) (h : t <:+: t2) :
    detect_policies t ⊆ detect_policies t2 := by
  intro p hp
  have hlow : lowerStr t <:+: lowerStr t2 := by
    obtain ⟨u, v, rfl⟩ := h
    exact ⟨lowerStr u, lowerStr v, by simp [lowerStr]⟩
  simp only [detect_policies, List.mem_append] at hp ⊢
  have seg : ∀ {x : String} {cond : Bool},
      p ∈ (if cond = true then [x] else []) → cond = true ∧ p = x := by
    intro x cond hmem
    cases cond
    · simp at hmem
    · simp at hmem; exact ⟨rfl, hmem⟩
  rcases hp with ((((hp | hp) | hp) | hp) | hp) | hp
  · obtain ⟨hc, rfl⟩ := seg hp
    simp [apiKeyCond, anyPhrase_infix_mono (by simpa [apiKeyCond] using hc) hlow]
  · obtain ⟨hc, rfl⟩ := seg hp
    simp [corsCond, containsSub_infix_mono (by simpa [corsCond] using hc) hlow]
  · obtain ⟨hc, rfl⟩ := seg hp
    simp [quotaCond, anyPhrase_infix_mono (by simpa [quotaCond] using hc) hlow]
  · obtain ⟨hc, rfl⟩ := seg hp
    simp [spikeCond, anyPhrase_infix_mono (by simpa [spikeCond] using hc) hlow]
  · obtain ⟨hc, rfl⟩ := seg hp
    simp [jsCond, anyPhrase_infix_mono (by simpa [jsCond] using hc) hlow]
  · obtain ⟨hc, rfl⟩ := seg hp
    simp [assignCond, anyPhrase_infix_mono (by simpa [assignCond] using hc) hlow]

/-- Witness for claim C9: appending a spike-arrest keyword keeps Quota. -/
theorem claim_C9_witness :
    "Quota" ∈ detect_policies
      ("add a quota policy".toList ++ " and spike arrest".toList) :=
  claim_C9 "add a quota policy".toList
    ("add a quota policy".toList ++ " and spike arrest".toList)
    ⟨[], " and spike arrest".toList, by simp⟩ (by decide)

/-! ### Claim C3 -/

theorem ite_single_sublist (b : Prop) [Decidable b] (x : String) :
    List.Sublist (if b then [x] else []) [x] := by
  by_cases hb : b <;> simp [hb]

/-- Claim C3: the list returned by `detect_policies` is always an
in-order sublist of the fixed enumeration (hence duplicate-free, drawn
from the enumeration, and in the fixed priority order), and an input
mentioning both a quota phrase and a spike phrase yields both `"Quota"`
and `"SpikeArrest"`, with `"Quota"` first. -/
theorem claim_C3 (msg : List Char) :
    detect_policies msg ⊆ policyEnum ∧
      List.Sublist (detect_policies msg) policyEnum ∧
      (detect_policies msg).Nodup ∧
      (quotaCond (lowerStr msg) = true → spikeCond (lowerStr msg) = true →
        ∃ l1 l2 l3, detect_policies msg =
          l1 ++ "Quota" :: (l2 ++ "SpikeArrest" :: l3)) := by
  have hsub : List.Sublist (detect_policies msg) policyEnum := by
    show List.Sublist (detect_policies msg)
      (["VerifyAPIKey"] ++ ["CORS"] ++ ["Quota"] ++ ["SpikeArrest"] ++
        ["JavaScript"] ++ ["AssignMessage"])
    unfold detect_policies
    exact (((((ite_single_sublist _ _).append (ite_single_sublist _ _)).append
      (ite_single_sublist _ _)).append (ite_single_sublist _ _)).append
      (ite_single_sublist _ _)).append (ite_single_sublist _ _)
  refine ⟨hsub.subset, hsub, hsub.nodup (by decide), ?_⟩
  intro hq hs
  refine ⟨(if apiKeyCond (lowerStr msg) then ["VerifyAPIKey"] else []) ++
    (if corsCond (lowerStr msg) then ["CORS"] else []), [],
    (if jsCond (lowerStr msg) then ["JavaScript"] else []) ++
    (if assignCond (lowerStr msg) then ["AssignMessage"] else []), ?_⟩
  unfold detect_policies
  simp [hq, hs]

/-- Witness for claim C3 at a concrete input. -/
theorem claim_C3_witness :
    quotaCond (lowerStr "enforce a quota and spike arrest".toList) = true ∧
    spikeCond (lowerStr "enforce a quota and spike arrest".toList) = true ∧
    ∃ l1 l2 l3, detect_policies "enforce a quota and spike arrest".toList =
      l1 ++ "Quota" :: (l2 ++ "SpikeArrest" :: l3) :=
  ⟨by decide, by decide,
    (claim_C3 "enforce a quota and spike arrest".toList).2.2.2 (by decide) (by decide)⟩

/-! ### Claim C4 -/

/-- Claim C4 counterexample: with `APIGEE_TOKEN` unset before the call
and an explicit non-empty token argument, the variable does not return
to its pre-call (unset) state: it remains set to the passed token, on
the success path shown here and equally on the failure path. -/
theorem claim_C4_cex :
    (deploy_to_apigee_model none (some "tok") true).2 = some "tok" ∧
    (deploy_to_apigee_model none (some "tok") false).2 = some "tok" := by
  constructor <;> rfl

/-- Claim C4 (amended): for a call with an explicit non-empty token, the
environment effect is the same on the success and the failure path, and
`APIGEE_TOKEN` is restored to its pre-call value exactly when that
pre-call value was set and non-empty; otherwise it stays overwritten
with the passed token. -/
theorem claim_C4_amended (pre : Option String) (s : String) (httpOk : Bool)
    (hs : strTruthy (some s) = true) :
    (strTruthy pre = true → (deploy_to_apigee_model pre (some s) httpOk).2 = pre) ∧
    (strTruthy pre = false →
      (deploy_to_apigee_model pre (some s) httpOk).2 = some s) := by
  unfold deploy_to_apigee_model
  constructor
  · intro hp; simp [hs, hp]
  · intro hp; simp [hs, hp]

/-- Witness for the amended claim C4 at concrete inputs. -/
theorem claim_C4_witness :
    strTruthy (some "new-token") = true ∧
    (strTruthy (some "old-token") = true →
      (deploy_to_apigee_model (some "old-token") (some "new-token") false).2 =
        some "old-token") :=
  ⟨by decide, (claim_C4_amended (some "old-token") "new-token" false (by decide)).1⟩

/-! ### Claim C7 -/

/-- Claim C7 counterexample: an input containing both the substring
`"4 requests per sec"` (inside `"44 requests per sec"`) and
`"spike arrest"` for which `extract_spike_arrest_rate` is `"44ps"`, not
`"4ps"`. -/
theorem claim_C7_cex :
    containsSub "4 requests per sec".toList
      "spike arrest at 44 requests per sec".toList = true ∧
    containsSub "spike arrest".toList
      "spike arrest at 44 requests per sec".toList = true ∧
    extract_spike_arrest_rate "spike arrest at 44 requests per sec".toList ≠
      "4ps".toList := by
  refine ⟨by decide, by decide, by decide⟩

/-- Claim C7 (amended): the rate embedded in the rendered SpikeArrest
descriptor always equals `extract_spike_arrest_rate` recomputed on the
original request text, and on an input whose leftmost rate match has
digit group `4` — such as the scenario text below — the rate is `"4ps"`
and `detect_policies` includes `"SpikeArrest"`.  (An input may contain
`"4 requests per sec"` only inside a larger number, in which case the
rate is that larger number.) -/
theorem claim_C7_amended :
    (∀ msg : List Char, generate_policy_xml "SpikeArrest" msg =
      spikeRatePre ++ String.mk (extract_spike_arrest_rate msg) ++ spikeRateSuf) ∧
    extract_spike_arrest_rate "Add spike arrest with 4 requests per sec".toList =
      "4ps".toList ∧
    "SpikeArrest" ∈
      detect_policies "Add spike arrest with 4 requests per sec".toList := by
  refine ⟨fun msg => rfl, by decide, by decide⟩

/-! ### Claim C1 -/

/-- Claim C1 counterexample: on input `"target is https:///pathabc.x"`
the extractor returns the matched candidate verbatim, a URL with an
empty host, instead of falling back to the default. -/
theorem claim_C1_cex :
    (extract_proxy_details "target is https:///pathabc.x".toList).target_url =
      "https:///pathabc.x".toList ∧
    wellFormedAbsoluteUrl
      (extract_proxy_details "target is https:///pathabc.x".toList).target_url =
      false := by
  constructor <;> decide

/-- Claim C1 (amended): `target_url` is either the default mock endpoint
or an accepted candidate, which is guaranteed to start (case-
insensitively) with `http://` or `https://`, to be longer than 10
characters after stripping trailing `.,;`, and to contain a `'.'` — but
not to have a non-empty host. -/
theorem claim_C1_amended (msg : List Char) :
    (extract_proxy_details msg).target_url =
      "https://mocktarget.apigee.net/json".toList ∨
    (schemeOkCI ((extract_proxy_details msg).target_url) ∧
      10 < (extract_proxy_details msg).target_url.length ∧
      '.' ∈ (extract_proxy_details msg).target_url) := by
  show extractTargetUrl msg = "https://mocktarget.apigee.net/json".toList ∨
    (schemeOkCI (extractTargetUrl msg) ∧ 10 < (extractTargetUrl msg).length ∧
      '.' ∈ extractTargetUrl msg)
  have main : ∀ u, urlMatchChain msg = some u →
      schemeOkCI u ∧ 10 < u.length ∧ '.' ∈ u := by
    intro u h
    unfold urlMatchChain at h
    rcases orElse_eq_some_cases h with h | h
    · exact urlTry_spec (fun ht => urlPat1At_schemeOk ht) h
    rcases orElse_eq_some_cases h with h | h
    · exact urlTry_spec (fun ht => urlPat2At_schemeOk ht) h
    rcases orElse_eq_some_cases h with h | h
    · exact urlTry_spec (fun ht => urlPat3At_schemeOk ht) h
    rcases orElse_eq_some_cases h with h | h
    · exact urlTry_spec (fun ht => urlLitDotGroupAt_schemeOk ht) h
    rcases orElse_eq_some_cases h with h | h
    · exact urlTry_spec (fun ht => urlLitDotGroupAt_schemeOk ht) h
    rcases orElse_eq_some_cases h with h | h
    · exact urlTry_spec (fun ht => urlLitDotGroupAt_schemeOk ht) h
    · exact urlTry_spec (fun ht => urlGroupAt_schemeOk ht) h
  unfold extractTargetUrl
  cases ho : urlMatchChain msg with
  | none => left; rfl
  | some u => right; exact main u ho

/-! ### Claim C2 -/

/-- Claim C2 counterexample: on input `"path /"` the captured group is
`"/"`, stripping slashes leaves the empty string, and the resulting
base path is exactly `"/"` — whose last character is `'/'`, so the
"no trailing slash" part of the claim fails. -/
theorem claim_C2_cex :
    (extract_proxy_details "path /".toList).base_path = "/".toList ∧
    (extract_proxy_details "path /".toList).base_path.getLast? = some '/' := by
  constructor <;> decide

theorem head_dropWhile_false {p : Char → Bool} :
    ∀ {l : List Char} {c : Char}, (l.dropWhile p).head? = some c → p c = false
  | [], c, h => by simp at h
  | a :: t, c, h => by
    rw [List.dropWhile_cons] at h
    by_cases ha : p a
    · rw [if_pos ha] at h
      exact head_dropWhile_false h
    · rw [if_neg ha] at h
      simp only [List.head?_cons, Option.some.injEq] at h
      subst h
      exact Bool.not_eq_true _ ▸ (by simpa using ha)

theorem dropWhile_sfx (p : Char → Bool) : ∀ l : List Char, l.dropWhile p <:+ l
  | [] => List.suffix_refl _
  | a :: t => by
    rw [List.dropWhile_cons]
    by_cases ha : p a
    · rw [if_pos ha]
      exact (dropWhile_sfx p t).trans (List.suffix_cons a t)
    · rw [if_neg ha]

theorem headq_of_pref {t d : List Char} (h : t <+: d) (hne : t ≠ []) :
    t.head? = d.head? := by
  obtain ⟨r, rfl⟩ := h
  cases t with
  | nil => exact absurd rfl hne
  | cons a t2 => simp

/-- The string kept by `strip('/')` neither starts nor ends with `'/'`
(unless it is empty). -/
theorem pyStripSlash_no_edge (g : List Char) :
    pyStripSlash g = [] ∨
      ((pyStripSlash g).head? ≠ some '/' ∧ (pyStripSlash g).getLast? ≠ some '/') := by
  by_cases hnil : pyStripSlash g = []
  · exact Or.inl hnil
  refine Or.inr ⟨?_, ?_⟩
  · intro hh
    have hpref : pyStripSlash g <+:
        g.dropWhile (fun c => c = '/') := by
      obtain ⟨u, hu⟩ :=
        dropWhile_sfx (fun c => c = '/') (g.dropWhile (fun c => c = '/')).reverse
      refine ⟨u.reverse, ?_⟩
      rw [pyStripSlash, ← List.reverse_append, hu, List.reverse_reverse]
    rw [headq_of_pref hpref hnil] at hh
    have := head_dropWhile_false hh
    simp at this
  · intro hl
    rw [pyStripSlash, List.getLast?_reverse] at hl
    have := head_dropWhile_false hl
    simp at this

theorem headq_mem {l : List Char} {c : Char} (h : l.head? = some c) : c ∈ l := by
  cases l with
  | nil => simp at h
  | cons a t => simp only [List.head?_cons, Option.some.injEq] at h; simp [h.symm]

theorem getLastq_mem {l : List Char} {c : Char} (h : l.getLast? = some c) : c ∈ l := by
  rw [← List.head?_reverse] at h
  exact List.mem_reverse.mp (headq_mem h)

/-- Name-pattern results never contain `'/'` (the class excludes it, the
space-to-hyphen replacement cannot introduce it, and the default has
none). -/
theorem extractProxyName_no_slash {ml : List Char} {c : Char}
    (hc : c ∈ extractProxyName ml) : c ≠ '/' := by
  unfold extractProxyName at hc
  cases hm : nameMatch ml with
  | none =>
    rw [hm] at hc
    exact (by decide :
      ∀ x ∈ ("generated-proxy".toList : List Char), x ≠ '/') c hc
  | some g =>
    rw [hm] at hc
    simp only [List.mem_map] at hc
    obtain ⟨d, hd, hdc⟩ := hc
    by_cases hsp : d = ' '
    · rw [if_pos hsp] at hdc; subst hdc; decide
    · rw [if_neg hsp] at hdc; subst hdc
      have hall := (nameMatch_spec hm).2.1
      rw [List.all_eq_true] at hall
      have := hall d hd
      intro hd2
      rw [hd2] at this
      exact absurd this (by decide)

/-- Claim C2 (amended): the base path always starts with exactly one
`'/'` (the next character, when present, is never `'/'`), and never ends
with `'/'` except in the degenerate case where the stripped captured
group is empty and the base path is exactly `"/"`. -/
theorem claim_C2_amended (msg : List Char) :
    ∃ t, (extract_proxy_details msg).base_path = '/' :: t ∧
      (t = [] ∨ (t.head? ≠ some '/' ∧ t.getLast? ≠ some '/')) := by
  show ∃ t, extractBasePath (lowerStr msg) (extractProxyName (lowerStr msg)) =
    '/' :: t ∧ _
  unfold extractBasePath
  cases hm : basePathMatch (lowerStr msg) with
  | some g => exact ⟨pyStripSlash g, rfl, pyStripSlash_no_edge g⟩
  | none =>
    refine ⟨extractProxyName (lowerStr msg), rfl, Or.inr ⟨?_, ?_⟩⟩
    · intro hh
      exact extractProxyName_no_slash (headq_mem hh) rfl
    · intro hl
      exact extractProxyName_no_slash (getLastq_mem hl) rfl

/-! ### Claim C6 -/

theorem strData_append (s t : String) : (s ++ t).toList = s.toList ++ t.toList := rfl

theorem stepXml_inj {a b : String} (h : stepXml a = stepXml b) : a = b := by
  unfold stepXml at h
  have hd := congrArg String.toList h
  rw [strData_append, strData_append, strData_append, strData_append,
    List.append_assoc, List.append_assoc] at hd
  have h1 := List.append_cancel_left hd
  have h2 := List.append_cancel_right h1
  have h3 : a.toList = b.toList := h2
  have := congrArg String.mk h3
  simpa using this

/-- Claim C6: policy steps are placed by the fixed classification table —
each present policy among VerifyAPIKey, CORS, AssignMessage, SpikeArrest
and Quota appears as a step of the PreFlow Request section; JavaScript,
when present, appears as a step of the PostFlow Response section; the
PreFlow Response section is always empty; any policy kind outside the
table appears in no flow section. -/
theorem claim_C6 (policies : List String) (p : String) :
    ((stepXml p ∈ preflowRequestSteps policies) ↔
      (p ∈ policies ∧ p ∈ preflowKinds)) ∧
    ((stepXml p ∈ postflowResponseSteps policies) ↔
      (p ∈ policies ∧ p ∈ postflowKinds)) ∧
    preflowResponseSteps policies = [] := by
  refine ⟨?_, ?_, rfl⟩
  · induction policies with
    | nil => simp [preflowRequestSteps]
    | cons q rest ih =>
      by_cases hq : q ∈ preflowKinds
      · simp only [preflowRequestSteps, if_pos hq, List.singleton_append,
          List.mem_cons]
        constructor
        · rintro (he | hm)
          · have := stepXml_inj he
            exact ⟨Or.inl this, this ▸ hq⟩
          · obtain ⟨h1, h2⟩ := ih.mp hm
            exact ⟨Or.inr h1, h2⟩
        · rintro ⟨(rfl | h1), h2⟩
          · exact Or.inl rfl
          · exact Or.inr (ih.mpr ⟨h1, h2⟩)
      · have hcol : (if q ∈ preflowKinds then [stepXml q] else
            if q ∈ postflowKinds then [] else []) = ([] : List String) := by
          rw [if_neg hq]
          by_cases h2 : q ∈ postflowKinds <;> simp [h2]
        simp only [preflowRequestSteps, hcol, List.nil_append, List.mem_cons]
        rw [ih]
        constructor
        · rintro ⟨h1, h2⟩
          exact ⟨Or.inr h1, h2⟩
        · rintro ⟨(rfl | h1), h2⟩
          · exact absurd h2 hq
          · exact ⟨h1, h2⟩
  · induction policies with
    | nil => simp [postflowResponseSteps]
    | cons q rest ih =>
      by_cases hq : q ∈ preflowKinds
      · have hdisj : q ∉ postflowKinds := by
          revert hq
          unfold preflowKinds postflowKinds
          intro hq
          fin_cases hq <;> decide
        simp only [postflowResponseSteps, if_pos hq, List.nil_append,
          List.mem_cons]
        rw [ih]
        constructor
        · rintro ⟨h1, h2⟩
          exact ⟨Or.inr h1, h2⟩
        · rintro ⟨(rfl | h1), h2⟩
          · exact absurd h2 hdisj
          · exact ⟨h1, h2⟩
      · by_cases hq2 : q ∈ postflowKinds
        · simp only [postflowResponseSteps, if_neg hq, if_pos hq2,
            List.singleton_append, List.mem_cons]
          constructor
          · rintro (he | hm)
            · have := stepXml_inj he
              exact ⟨Or.inl this, this ▸ hq2⟩
            · obtain ⟨h1, h2⟩ := ih.mp hm
              exact ⟨Or.inr h1, h2⟩
          · rintro ⟨(rfl | h1), h2⟩
            · exact Or.inl rfl
            · exact Or.inr (ih.mpr ⟨h1, h2⟩)
        · simp only [postflowResponseSteps, if_neg hq, if_neg hq2,
            List.nil_append, List.mem_cons]
          rw [ih]
          constructor
          · rintro ⟨h1, h2⟩
            exact ⟨Or.inr h1, h2⟩
          · rintro ⟨(rfl | h1), h2⟩
            · exact absurd h2 hq2
            · exact ⟨h1, h2⟩

/-! ### Claim C5 -/

theorem containsSub_iff {n : List Char} :
    ∀ {h : List Char}, containsSub n h = true ↔ n <:+: h
  | [] => by
    simp only [containsSub, List.isEmpty_iff, List.infix_nil]
  | c :: t => by
    simp only [containsSub, Bool.or_eq_true, List.infix_cons_iff]
    exact or_congr ( List.isPrefixOf_iff_prefix) containsSub_iff

theorem pref_of_pref_append {n x y : List Char} (h : n <+: x ++ y)
    (hl : n.length ≤ x.length) : n <+: x :=
  List.prefix_of_prefix_length_le h ⟨y, rfl⟩ hl

theorem take_eq_of_pref_append {n x y : List Char} (h : n <+: x ++ y)
    (hl : x.length ≤ n.length) : n.take x.length = x := by
  obtain ⟨r, hr⟩ := h
  have h2 : (n ++ r).take x.length = n.take x.length :=
    List.take_append_of_le_length hl
  rw [hr] at h2
  rw [← h2]
  exact List.take_left x y

theorem not_infix_append {n : List Char} :
    ∀ {x y : List Char}, ¬ n <:+: x →
      (∀ k, 0 < k → k < n.length → ¬ n.take k <:+ x) →
      ¬ n <:+: y → ¬ n <:+: (x ++ y)
  | [], y, hx, hstr, hy => by simpa using hy
  | c :: x2, y, hx, hstr, hy => by
    intro hin
    rw [List.cons_append, List.infix_cons_iff] at hin
    rcases hin with hpre | hin
    · rw [← List.cons_append] at hpre
      by_cases hlen : n.length ≤ (c :: x2).length
      · exact hx (pref_of_pref_append hpre hlen).isInfix
      · push_neg at hlen
        refine hstr (c :: x2).length (by simp) hlen ?_
        rw [take_eq_of_pref_append hpre (le_of_lt hlen)]
    · exact not_infix_append (fun h2 => hx (List.infix_cons h2))
        (fun k h1 h2 hsf => hstr k h1 h2 (hsf.trans (List.suffix_cons c x2)))
        hy hin

theorem suffix_split {t x y : List Char} (h : t <:+ x ++ y)
    (hlen : t.length ≤ y.length) : t <:+ y := by
  obtain ⟨u, hu⟩ := h
  have hl : u.length + t.length = x.length + y.length := by
    have h2 := congrArg List.length hu
    simpa using h2
  have hxu : x.length ≤ u.length := by omega
  refine ⟨u.drop x.length, ?_⟩
  have h3 := congrArg (List.drop x.length) hu
  rw [List.drop_append_of_le_length hxu, List.drop_left] at h3
  exact h3

theorem safeSeg_append {n x y : List Char} (hx : SafeSeg n x) (hy : SafeSeg n y) :
    SafeSeg n (x ++ y) := by
  refine ⟨not_infix_append hx.1 hx.2 hy.1, ?_⟩
  intro k hk1 hk2 hsf
  by_cases hlen : (n.take k).length ≤ y.length
  · exact hy.2 k hk1 hk2 (suffix_split hsf hlen)
  · push_neg at hlen
    obtain ⟨u, hu⟩ := hsf
    have hsum : u.length + (n.take k).length = x.length + y.length := by
      have h2 := congrArg List.length hu
      simpa using h2
    have hux : u.length ≤ x.length := by omega
    have hj1 : 0 < x.length - u.length := by omega
    have hjk2 : x.length - u.length ≤ k := by
      have htk : (n.take k).length ≤ k := by
        simp [List.length_take]
      omega
    have hjn : x.length - u.length < n.length := by omega
    have hx2 : x = u ++ (n.take k).take (x.length - u.length) := by
      have h3 := congrArg (List.take x.length) hu
      rw [List.take_append_eq_append_take, List.take_left,
        List.take_of_length_le hux] at h3
      exact h3.symm
    have htk2 : (n.take k).take (x.length - u.length) =
        n.take (x.length - u.length) := by
      rw [List.take_take]
      congr 1
      omega
    refine hx.2 (x.length - u.length) hj1 hjn ⟨u, ?_⟩
    rw [← htk2, ← hx2]

theorem safeSeg_of_head {n x : List Char} {c0 : Char} (hn : n.head? = some c0)
    (hx : c0 ∉ x) : SafeSeg n x := by
  constructor
  · intro hin
    exact hx (hin.subset (headq_mem hn))
  · intro k hk1 _ hsf
    apply hx
    apply hsf.subset
    cases n with
    | nil => simp at hn
    | cons a t =>
      simp only [List.head?_cons, Option.some.injEq] at hn
      subst hn
      cases k with
      | zero => omega
      | succ k2 => simp [List.take_succ_cons]

theorem safeSeg_of_b {n x : List Char} (h : safeSegB n x = true) : SafeSeg n x := by
  simp only [safeSegB, Bool.and_eq_true, Bool.not_eq_true', List.all_eq_true,
    Bool.or_eq_true, decide_eq_true_eq] at h
  obtain ⟨h1, h2⟩ := h
  constructor
  · intro hin
    rw [← containsSub_iff (h := x)] at hin
    rw [h1] at hin
    cases hin
  · intro k hk1 hk2 hsf
    rcases h2 k (List.mem_range.mpr hk2) with h3 | h3
    · omega
    · have h4 := List.isSuffixOf_iff_suffix.mpr hsf
      rw [h4] at h3
      cases h3

theorem stepXml_safe {p : String} (hp : p ∈ policyEnum) :
    SafeSeg frNeedle (stepXml p).toList := by
  fin_cases hp <;> exact safeSeg_of_b (by decide)

theorem joinNL_safe : ∀ {steps : List String},
    (∀ s ∈ steps, SafeSeg frNeedle s.toList) →
    SafeSeg frNeedle (joinNL steps).toList
  | [], _ => safeSeg_of_b (by decide)
  | [s], h => by simpa [joinNL] using h s (by simp)
  | s :: s2 :: rest, h => by
    show SafeSeg frNeedle (s ++ "\n" ++ joinNL (s2 :: rest)).toList
    rw [strData_append, strData_append]
    exact safeSeg_append
      (safeSeg_append (h s (by simp)) (safeSeg_of_b (by decide)))
      (joinNL_safe (fun x hx => h x (by simp [hx])))

theorem mem_preflowSteps {policies : List String} {s : String} :
    s ∈ preflowRequestSteps policies → ∃ p ∈ policies, s = stepXml p := by
  induction policies with
  | nil => intro h; simp [preflowRequestSteps] at h
  | cons q rest ih =>
    intro h
    simp only [preflowRequestSteps, List.mem_append] at h
    rcases h with h | h
    · refine ⟨q, by simp, ?_⟩
      by_cases h1 : q ∈ preflowKinds
      · rw [if_pos h1] at h; simpa using h
      · rw [if_neg h1] at h
        by_cases h2 : q ∈ postflowKinds <;> simp [h2] at h
    · obtain ⟨p, hp1, hp2⟩ := ih h
      exact ⟨p, by simp [hp1], hp2⟩

theorem mem_postflowSteps {policies : List String} {s : String} :
    s ∈ postflowResponseSteps policies → ∃ p ∈ policies, s = stepXml p := by
  induction policies with
  | nil => intro h; simp [postflowResponseSteps] at h
  | cons q rest ih =>
    intro h
    simp only [postflowResponseSteps, List.mem_append] at h
    rcases h with h | h
    · refine ⟨q, by simp, ?_⟩
      by_cases h1 : q ∈ preflowKinds
      · rw [if_pos h1] at h; simp at h
      · rw [if_neg h1] at h
        by_cases h2 : q ∈ postflowKinds
        · rw [if_pos h2] at h; simpa using h
        · rw [if_neg h2] at h; simp at h
    · obtain ⟨p, hp1, hp2⟩ := ih h
      exact ⟨p, by simp [hp1], hp2⟩

set_option maxRecDepth 40000 in
/-- Claim C5: for every policies list drawn from the fixed enumeration,
the rendered proxy-endpoint descriptor contains the `<FaultRules>` block
if and only if `"VerifyAPIKey"` is among the policies (for any proxy name
and base path not themselves containing `'<'`), and the bundle policy
descriptors written by `create_proxy_bundle` never include files for the
two referenced step names `AM-InvalidAPIKey` and `AM-GenericError`. -/
theorem claim_C5 (name base_path message : String) (policies : List String)
    (hn : '<' ∉ name.toList) (hb : '<' ∉ base_path.toList)
    (hp : ∀ p ∈ policies, p ∈ policyEnum) :
    (containsStr "<FaultRules>"
        (generate_proxy_endpoint_xml name base_path policies message) = true ↔
      "VerifyAPIKey" ∈ policies) ∧
    "policies/AM-InvalidAPIKey.xml" ∉ bundlePolicyFiles policies ∧
    "policies/AM-GenericError.xml" ∉ bundlePolicyFiles policies := by
  have hbundle : ∀ bad : String,
      (∀ p ∈ policyEnum, "policies/" ++ p ++ ".xml" ≠ bad) →
      bad ∉ bundlePolicyFiles policies := by
    intro bad hbad hmem
    simp only [bundlePolicyFiles, List.mem_map] at hmem
    obtain ⟨p, hp2, hpe⟩ := hmem
    exact hbad p (hp p hp2) hpe
  refine ⟨?_, hbundle _ (by decide), hbundle _ (by decide)⟩
  constructor
  · intro hc
    by_contra hv
    have hin : frNeedle <:+:
        (generate_proxy_endpoint_xml name base_path policies message).toList :=
      containsSub_iff.mp hc
    rw [generate_proxy_endpoint_xml] at hin
    rw [show faultRulesXml policies = "" from if_neg hv] at hin
    simp only [strData_append] at hin
    have hj1 : SafeSeg frNeedle (joinNL (preflowRequestSteps policies)).toList :=
      joinNL_safe (fun s hs => by
        obtain ⟨p, hp1, rfl⟩ := mem_preflowSteps hs
        exact stepXml_safe (hp p hp1))
    have hj2 : SafeSeg frNeedle (joinNL (preflowResponseSteps policies)).toList :=
      joinNL_safe (fun s hs => by simp [preflowResponseSteps] at hs)
    have hj3 : SafeSeg frNeedle (joinNL (postflowResponseSteps policies)).toList :=
      joinNL_safe (fun s hs => by
        obtain ⟨p, hp1, rfl⟩ := mem_postflowSteps hs
        exact stepXml_safe (hp p hp1))
    have hA : SafeSeg frNeedle epSegA.toList := safeSeg_of_b (by decide)
    have hB : SafeSeg frNeedle epSegB.toList := safeSeg_of_b (by decide)
    have hC : SafeSeg frNeedle epSegC.toList := safeSeg_of_b (by decide)
    have hD : SafeSeg frNeedle epSegD.toList := safeSeg_of_b (by decide)
    have hE : SafeSeg frNeedle epSegE.toList := safeSeg_of_b (by decide)
    have hF : SafeSeg frNeedle epSegF.toList := safeSeg_of_b (by decide)
    have hG : SafeSeg frNeedle epSegG.toList := safeSeg_of_b (by decide)
    have hEmp : SafeSeg frNeedle ("" : String).toList := safeSeg_of_b (by decide)
    have hName : SafeSeg frNeedle name.toList := safeSeg_of_head rfl hn
    have hBp : SafeSeg frNeedle base_path.toList := safeSeg_of_head rfl hb
    exact (safeSeg_append (safeSeg_append (safeSeg_append (safeSeg_append
      (safeSeg_append (safeSeg_append (safeSeg_append (safeSeg_append
      (safeSeg_append (safeSeg_append (safeSeg_append (safeSeg_append
      hA hName) hB) hEmp) hC) hj1) hD) hj2) hE) hj3) hF) hBp) hG).1 hin
  · intro hv
    have hfb : frNeedle <:+: faultRulesBlock.toList :=
      containsSub_iff.mp (by decide)
    show containsSub frNeedle
      (generate_proxy_endpoint_xml name base_path policies message).toList = true
    rw [containsSub_iff]
    rw [generate_proxy_endpoint_xml]
    rw [show faultRulesXml policies = faultRulesBlock from if_pos hv]
    simp only [strData_append]
    refine (((((((((hfb.trans
      (List.suffix_append _ faultRulesBlock.toList).isInfix).trans
      (List.prefix_append _ _).isInfix).trans
      (List.prefix_append _ _).isInfix).trans
      (List.prefix_append _ _).isInfix).trans
      (List.prefix_append _ _).isInfix).trans
      (List.prefix_append _ _).isInfix).trans
      (List.prefix_append _ _).isInfix).trans
      (List.prefix_append _ _).isInfix).trans
      (List.prefix_append _ _).isInfix).trans
      (List.prefix_append _ _).isInfix

/-- Witness for claim C5 at concrete inputs. -/
theorem claim_C5_witness :
    (containsStr "<FaultRules>"
        (generate_proxy_endpoint_xml "sample" "/sample"
          ["VerifyAPIKey", "JavaScript"] "") = true ↔
      "VerifyAPIKey" ∈ ["VerifyAPIKey", "JavaScript"]) ∧
    "policies/AM-InvalidAPIKey.xml" ∉
      bundlePolicyFiles ["VerifyAPIKey", "JavaScript"] ∧
    "policies/AM-GenericError.xml" ∉
      bundlePolicyFiles ["VerifyAPIKey", "JavaScript"] :=
  claim_C5 "sample" "/sample" "" ["VerifyAPIKey", "JavaScript"]
    (by decide) (by decide) (by decide)
